import Mathlib

set_option maxRecDepth 40000

/-!
Verification of the rdc2 ext2 driver core (crate `rdc2`: `lib.rs`, `inode.rs`,
`metadata.rs`) against its natural-language specification.

The driver operates on a memory-mapped ext2 image through typed views.  The
embedding below models exactly the state each operation touches:

* machine integers (`u8`, `u16`, `u32`, `usize`) are `Nat` with explicit
  `% 2^w` at the places the source performs a narrowing cast or wrapping
  subtraction;
* raw-pointer loads and stores become reads and updates of explicit state
  (lists of bytes for blocks and bitmaps, a record structure for an inode);
* Rust panics (`panic!`, `todo!`, `unimplemented!`, `expect`, `assert_eq!`,
  slice bounds checks, `Option::unwrap`) become `Except PanicKind` errors or
  `Option` `none`s, with one constructor per distinct panic site kind;
* loops whose iteration count is bounded by an argument are written with an
  explicit fuel equal to that bound, so every definition is structurally
  recursive and computes by `decide` / `rfl`.

Directory data is modelled at the granularity the source itself uses: the
source reads a directory block through `*mut RawDirectoryEntry` typed views
chained by their `size` field, so a block is a list of records and the cursor
offset of a record is the running sum of the sizes before it.
-/

/-- The distinct panic/abort sites of the driver.  `Cursor::get_current_block_index`
has both an explicit `panic!("Can't use more than 12 blocks")` (here
`tooManyBlocks`) and, at slot exactly 12, the Rust bounds check of
`direct_block_pointers[12]` on a `[u32; 12]` (here `indexOutOfBounds`). -/
inductive PanicKind where
  | tooManyBlocks      -- explicit guard in Cursor::get_current_block_index
  | indexOutOfBounds   -- Rust bounds check when the guard admits slot 12
  | bitmapExhausted    -- reserve_bitmap: scan found no free slot (unwrap / out-of-range read)
  | dirFull            -- DirectoryEntries::add_entry todo branches (no record to split)
  | nameTooLong        -- u8::try_from(name.len()).expect in add_entry
  | unimplementedDirectory -- create_inode_in_dir: unimplemented!("Can't create a directory")
  | unknownKind        -- EntryKind::to_typeperm panic on Unkown
  | invalidSignature   -- assert_eq!(ext2sig, 0xef53) in Superblock::from_ptr
  | unsupportedVersion -- expect("only support for version >= 1") in Ext2Device::open
  | divByZero          -- u32 division by block_count_in_group == 0 in open
deriving DecidableEq, Repr

/-- `EntryKind` from `inode.rs` (the source spells `Unkown`). -/
inductive EntryKind where
  | Unkown
  | RegularFile
  | Directory
  | CharDevice
  | BlockDevice
  | Fifo
  | Socket
  | Symlink
deriving DecidableEq, Repr

/-- The `InodeData` fields the verified operations read or write
(`type_permission`, ids, `size_lower_32_bits`, `hard_link_to_inode`,
`direct_block_pointers`); the remaining on-disk fields are never touched by
the claims under verification. -/
structure InodeData where
  type_permission : Nat          -- u16 bitfield
  user_id : Nat                  -- u16
  group_id : Nat                 -- u16
  size_lower_32_bits : Nat       -- u32
  hard_link_to_inode : Nat       -- u16
  direct_block_pointers : List Nat  -- [u32; 12]

/-- Turn an `Except` result into an `Option`, dropping the panic kind. -/
def okValue {α : Type} : Except PanicKind α → Option α
  | .ok a => some a
  | .error _ => none

namespace Cursor

/-- `Cursor::get_current_block_index`: `block_count = total_index / block_size`;
an explicit `panic!` when `block_count > 12`, then `direct_block_pointers[block_count]`
(a bounds-checked index into a `[u32; 12]`, so `block_count = 12` panics there),
`0` meaning "no block assigned".  A `block_size` of zero would make the `u32`
division panic. -/
def get_current_block_index (pointers : List Nat) (block_size total_index : Nat) :
    Except PanicKind (Option Nat) :=
  if block_size = 0 then .error .divByZero
  else
    let block_count := total_index / block_size
    if 12 < block_count then .error .tooManyBlocks
    else
      match pointers[block_count]? with
      | none => .error .indexOutOfBounds
      | some 0 => .ok none
      | some b => .ok (some b)

end Cursor

/-- The filesystem state the cursor read/write path touches: the block size,
the block bitmap of the inode's group (for allocation), the data blocks
(block index to byte contents) and the inode record. -/
structure FileFs where
  block_size : Nat
  bitmap : List Nat
  blocks : Nat → List Nat
  inode : InodeData

namespace FileSystem

/-- The byte scan of `FileSystem::reserve_bitmap`: advance while
`index < 1024 && *bitmap_block == 255`.  Returns the number of bytes stepped
over (the loop also stops if it walks off the modelled byte list). -/
def scan_full : List Nat → Nat → Nat
  | [], _ => 0
  | b :: rest, bound => if bound = 0 then 0 else if b = 255 then 1 + scan_full rest (bound - 1) else 0

/-- The bit scan of `FileSystem::reserve_bitmap`: `for i in 0..8`, first `i`
with `byte & (1 << i) == 0`, scanning from least significant bit.  Fuel-driven
so it computes; the call site uses fuel 8 starting at bit 0. -/
def first_zero_bit : Nat → Nat → Nat → Option Nat
  | 0, _, _ => none
  | fuel + 1, byte, i =>
      if byte &&& (1 <<< i) = 0 then some i else first_zero_bit fuel byte (i + 1)

/-- `FileSystem::reserve_bitmap`: scan at most 1024 bytes for the first byte
below 255, pick its first zero bit (LSB first), set that bit, and return
`byte_index * 8 + bit_index` together with the updated bitmap.  `none` models
the panicking/undefined outcomes: the byte read past the modelled bitmap when
every scanned byte is 255, and the `Option::unwrap` when the chosen byte has
no zero bit. -/
def reserve_bitmap (bm : List Nat) : Option (Nat × List Nat) :=
  let index := scan_full bm 1024
  match bm[index]? with
  | none => none
  | some byte =>
    match first_zero_bit 8 byte 0 with
    | none => none
    | some i => some (index * 8 + i, bm.set index (byte ||| (1 <<< i)))

end FileSystem

namespace Inode

/-- The pointer-array update of `Inode::reserve_block`: write `v` into the
first slot equal to 0, leaving the array unchanged when no slot is free
(the `for` loop simply runs out). -/
def set_first_zero : List Nat → Nat → List Nat
  | [], _ => []
  | p :: ps, v => if p = 0 then v :: ps else p :: set_first_zero ps v

/-- `Inode::reserve_block`: reserve a bit in the group's block bitmap, then
record the block index in the first zero slot of `direct_block_pointers` —
returning the new block index in every case, even when all twelve slots are
already occupied and the loop records nothing. -/
def reserve_block (bm pointers : List Nat) : Option (Nat × List Nat × List Nat) :=
  match FileSystem.reserve_bitmap bm with
  | none => none
  | some (new_block, bm') => some (new_block, bm', set_first_zero pointers new_block)

end Inode

namespace Cursor

/-- One traversal step of `Cursor::read`: `read_to_end_of_block_at_most`
copies `min(remaining_in_block, buffer_remaining)` bytes from the current
block; `None` from `get_ptr` (slot holds 0) ends the loop.  The fuel equals
the initial buffer length: with a positive block size every iteration copies
at least one byte, so the loop runs at most that many times. -/
def read_go : Nat → FileFs → Nat → Nat → Except PanicKind (List Nat)
  | 0, _, _, _ => .ok []
  | fuel + 1, fs, total_index, buf_len =>
    if buf_len = 0 then .ok []
    else
      match get_current_block_index fs.inode.direct_block_pointers fs.block_size total_index with
      | .error e => .error e
      | .ok none => .ok []
      | .ok (some b) =>
        let offs := total_index % fs.block_size
        let amount := min (fs.block_size - offs) buf_len
        match read_go fuel fs (total_index + amount) (buf_len - amount) with
        | .error e => .error e
        | .ok rest => .ok (((fs.blocks b).drop offs).take amount ++ rest)

/-- `Cursor::read(buffer)`: returns the bytes copied into the buffer (their
count is the `usize` the source returns). -/
def read (fs : FileFs) (total_index buf_len : Nat) : Except PanicKind (List Nat) :=
  read_go buf_len fs total_index buf_len

/-- One step of `Cursor::write`: `write_to_end_of_block_at_most`.  When
`get_ptr` yields a block, copy `min(remaining_in_block, data_remaining)` bytes
at the in-block offset.  When the slot holds 0, `allocate_new_block` reserves
a block through the bitmap, records it via `Inode::reserve_block`, and the
source then uses the pair `(block start pointer, block_size)` — so the bytes
land at offset 0 of the fresh block with `block_size` available, whatever
`total_index % block_size` is.  The inode's `size_lower_32_bits` is never
written anywhere on this path.  Fuel equals `data.length` (each iteration
writes at least one byte). -/
def write_go : Nat → FileFs → Nat → List Nat → Except PanicKind (FileFs × Nat)
  | 0, fs, total_index, _ => .ok (fs, total_index)
  | fuel + 1, fs, total_index, data =>
    if data.length = 0 then .ok (fs, total_index)
    else
      match get_current_block_index fs.inode.direct_block_pointers fs.block_size total_index with
      | .error e => .error e
      | .ok (some b) =>
        let offs := total_index % fs.block_size
        let amount := min (fs.block_size - offs) data.length
        let blk := fs.blocks b
        let blk' := blk.take offs ++ data.take amount ++ blk.drop (offs + amount)
        write_go fuel { fs with blocks := fun i => if i = b then blk' else fs.blocks i }
          (total_index + amount) (data.drop amount)
      | .ok none =>
        match Inode.reserve_block fs.bitmap fs.inode.direct_block_pointers with
        | none => .error .bitmapExhausted
        | some (nb, bm', ptrs') =>
          let fs1 := { fs with bitmap := bm',
                               inode := { fs.inode with direct_block_pointers := ptrs' } }
          let amount := min fs.block_size data.length
          let blk' := data.take amount ++ (fs1.blocks nb).drop amount
          write_go fuel { fs1 with blocks := fun i => if i = nb then blk' else fs1.blocks i }
            (total_index + amount) (data.drop amount)

/-- `Cursor::write(data)`: loop until every byte of `data` is written.
No statement in `Cursor::write` or its callees updates
`inode.size_lower_32_bits`. -/
def write (fs : FileFs) (total_index : Nat) (data : List Nat) :
    Except PanicKind (FileFs × Nat) :=
  write_go data.length fs total_index data

/-- `Cursor::advance(amount)`: `total_index += min(amount, inode.size())`
— the source takes the minimum against the whole inode size, not against the
bytes remaining before end-of-file. -/
def advance (inode_size total_index amount : Nat) : Nat :=
  total_index + min amount inode_size

/-- `Cursor::advance_to_end()`: `advance(size - total_index)` (u32
subtraction; truncated here, matching it for `total_index ≤ size`). -/
def advance_to_end (inode_size total_index : Nat) : Nat :=
  advance inode_size total_index (inode_size - total_index)

end Cursor

/-- The superblock fields `Superblock::from_ptr` and `Ext2Device::open`
consult. -/
structure SuperblockM where
  ext2sig : Nat            -- u16, must be 0xEF53
  major_version : Nat      -- u32
  log_block_size : Nat     -- u32
  block_count : Nat        -- u32
  block_count_in_group : Nat -- u32

/-- What `Ext2Device::open` derives on success. -/
structure OpenInfo where
  block_size : Nat
  number_of_groups : Nat
  block_table : Nat
deriving DecidableEq, Repr

namespace Superblock

/-- `Superblock::from_ptr`: assert the 0xEF53 signature, then return the
extended-superblock view — which the source produces when
`major_version > 1` is FALSE, i.e. for major versions 0 and 1, and omits
for every major version above 1. -/
def from_ptr (sb : SuperblockM) : Except PanicKind (SuperblockM × Option Unit) :=
  if sb.ext2sig = 0xef53 then
    .ok (sb, if 1 < sb.major_version then none else some ())
  else .error .invalidSignature

end Superblock

namespace Ext2Device

/-- `Ext2Device::open`: read the superblock, `expect` the extended
superblock, derive `block_size = 1024 << log_block_size`, the rounded-up
group count, and the descriptor-table block (2 when `log_block_size == 0`,
else 1). -/
def openFs (sb : SuperblockM) : Except PanicKind OpenInfo :=
  match Superblock.from_ptr sb with
  | .error e => .error e
  | .ok (_, none) => .error .unsupportedVersion
  | .ok (sb, some _) =>
    let block_size := 1024 <<< sb.log_block_size
    if sb.block_count_in_group = 0 then .error .divByZero
    else
      let n := sb.block_count / sb.block_count_in_group
      let number_of_groups := if sb.block_count % sb.block_count_in_group ≠ 0 then n + 1 else n
      let block_table := if sb.log_block_size = 0 then 2 else 1
      .ok ⟨block_size, number_of_groups, block_table⟩

end Ext2Device

/-- Wrapping `u16` subtraction, as performed on `(*dir_entry).size` and the
padding arithmetic in `DirectoryEntries::add_entry`. -/
def sub16 (a b : Nat) : Nat := (a % 65536 + (65536 - b % 65536)) % 65536

/-- A directory record as the source reads it: the four `RawDirectoryEntry`
header fields plus the `name_len` bytes of name that follow the header. -/
structure DirRecord where
  inode : Nat      -- u32 (InodeRef)
  size : Nat       -- u16, distance to the next record
  name_len : Nat   -- u8
  kind : EntryKind
  name : List Nat  -- name_len bytes
deriving DecidableEq, Repr

/-- A yielded `DirectoryEntry` (iterator item): inode, size, kind, name. -/
structure DirEntry where
  inode : Nat
  size : Nat
  kind : EntryKind
  name : List Nat
deriving DecidableEq, Repr

/-- `DirectoryEntry::from_raw` on a peeked record. -/
def DirRecord.toEntry (r : DirRecord) : DirEntry :=
  ⟨r.inode, r.size, r.kind, r.name⟩

/-- The identity of an entry as the round-trip property compares it:
inode, kind and name (the `size` field is bookkeeping). -/
def entryKey (e : DirEntry) : Nat × EntryKind × List Nat :=
  (e.inode, e.kind, e.name)

namespace DirectoryEntries

/-- `DirectoryEntries` iteration (`Iterator::next` in `inode.rs`), walking a
record list with the cursor offset `off` carried along: stop when fewer than
8 bytes remain in the block (`remain < size_of::<RawDirectoryEntry>()` makes
`access_with` yield `None`), or when the record's size is 0 (defensive stop);
otherwise yield the entry and advance by `size`.  The empty list is the
cursor hitting an unassigned block slot.  (The model assumes the directory
data sits in the inode's direct blocks — at most 12 — as every directory this
core can touch does; a cursor walking past slot 12 would panic instead.) -/
def entries_from (B : Nat) : List DirRecord → Nat → List DirEntry
  | [], _ => []
  | r :: rest, off =>
    if B - off % B < 8 then []
    else if r.size = 0 then []
    else r.toEntry :: entries_from B rest (off + r.size)

/-- `DirectoryEntries::add_entry(kind, name, inode)` over the record chain,
with `off` the cursor offset of the record at hand (the cursor starts at 0).
Stepwise, mirroring the source loop:

* `peek` fails — no next record (`none` here), a block remainder under
  8 bytes, or a record size of 0 — both `todo!` panics: `none`;
* `padding_size = size - (name_len + 8)` in u16 arithmetic; if below
  `new_entry_size = (name.len() + 8) as u16`, advance (`self.next()`) and
  retry on the rest;
* `align(4)` yields `correction = (total_index % block_size) % 4` computed at
  the START of the record (the cursor has not moved past the header), or
  fails when the correction exceeds the bytes left in the block
  (`todo!`: `none`);
* `remaining_padding = padding_size - correction` (u16); if below
  `new_entry_size`, advance and retry;
* otherwise split: the current record's size becomes
  `correction + name_len + 8` (u16 sum), and a fresh record
  `{inode, size: remaining_padding, name_len, kind}` plus the name bytes is
  written immediately after it.  `u8::try_from(name.len())` panics for names
  of 256 bytes or more (`none`; the source checks this after mutating the
  record, the difference is invisible on non-`none` results).

The split writes happen through `reader.advance(new size)` followed by two
`Cursor::write`s.  Because `new size ≤ old size ≤ B ≤ directory size` the
buggy `advance` still moves exactly `new size`, and because
`padding_size ≥ new_entry_size` the header and name land inside the old
record's extent in the same block, which is exactly the list insertion
performed here. -/
def add_entry_go (B new_inode : Nat) (kind : EntryKind) (new_name : List Nat) :
    List DirRecord → Nat → Option (List DirRecord)
  | [], _ => none
  | r :: rest, off =>
    if B - off % B < 8 then none
    else if r.size = 0 then none
    else if sub16 r.size (r.name_len + 8) < (new_name.length + 8) % 65536 then
      (add_entry_go B new_inode kind new_name rest (off + r.size)).map (r :: ·)
    else if B - off % B < off % B % 4 then none
    else if sub16 (sub16 r.size (r.name_len + 8)) (off % B % 4) < (new_name.length + 8) % 65536 then
      (add_entry_go B new_inode kind new_name rest (off + r.size)).map (r :: ·)
    else if 255 < new_name.length then none
    else
      some ({ r with size := (off % B % 4 + r.name_len + 8) % 65536 } ::
            ⟨new_inode, sub16 (sub16 r.size (r.name_len + 8)) (off % B % 4),
              new_name.length, kind, new_name⟩ :: rest)

end DirectoryEntries

/-- The bits `EntryKind::to_typeperm` maps each kind to (`TypePermission`
constants); the `Unkown` panic is handled at the call site model. -/
def kindTypeBits : EntryKind → Nat
  | .Unkown => 0
  | .RegularFile => 0x8000
  | .Directory => 0x4000
  | .CharDevice => 0x2000
  | .BlockDevice => 0x6000
  | .Fifo => 0x1000
  | .Socket => 0xC000
  | .Symlink => 0xA000

/-- The state `Inode::create_inode_in_dir` touches, for a directory that
lives in group 0 (as the root directory of the test image does): the block
size, the group's inode bitmap, the inode table indexed by the 1-based inode
number as `get_inode_in_table` resolves it, the directory's record chain and
the directory's own inode record. -/
structure DirFs where
  block_size : Nat
  inode_bitmap : List Nat
  inode_table : Nat → InodeData
  dir_records : List DirRecord
  dir_inode : InodeData

namespace Inode

/-- `Inode::create_inode_in_dir(kind, perms, user_id, group_id, name)`:
`unimplemented!` for `Directory`; `None` unless the inode's
`type_permission` contains `DIR` (bitflags `contains`: all flag bits set);
otherwise reserve an inode in the directory's group
(`reserve_bitmap` result + 1), insert the directory entry, then initialise
exactly `type_permission = kind | perms`, `hard_link_to_inode = 1`,
`user_id` and `group_id` on the new inode's table record — no other field of
that record is written.  `perms` is the `Permission` bitfield, injected into
`TypePermission` bit-for-bit by `Permission::to_typeperm`. -/
def create_inode_in_dir (st : DirFs) (kind : EntryKind) (perms user_id group_id : Nat)
    (name : List Nat) : Except PanicKind (Option (Nat × DirFs)) :=
  if kind = .Directory then .error .unimplementedDirectory
  else if st.dir_inode.type_permission &&& 0x4000 = 0x4000 then
    match FileSystem.reserve_bitmap st.inode_bitmap with
    | none => .error .bitmapExhausted
    | some (bit, bm') =>
      let new_ref := bit + 1
      match DirectoryEntries.add_entry_go st.block_size new_ref kind name st.dir_records 0 with
      | none => .error .dirFull
      | some records' =>
        if kind = .Unkown then .error .unknownKind
        else
          let old := st.inode_table new_ref
          let new_inode := { old with
            type_permission := kindTypeBits kind ||| perms,
            hard_link_to_inode := 1,
            user_id := user_id,
            group_id := group_id }
          .ok (some (new_ref,
            { st with inode_bitmap := bm', dir_records := records',
                      inode_table := fun n => if n = new_ref then new_inode else st.inode_table n }))
  else .ok none

end Inode

/-- Extract the panic kind of a failed computation. -/
def panicOf {α : Type} : Except PanicKind α → Option PanicKind
  | .ok _ => none
  | .error e => some e

/-- A fresh regular file in a 1024-byte-block filesystem: size 0, no blocks
assigned, block bitmap with block 0 taken (so the first reservation returns
block 1). -/
def c1Fs : FileFs :=
  ⟨1024, 1 :: List.replicate 1023 0, fun _ => List.replicate 1024 0,
    ⟨0x8000, 0, 0, 0, 1, List.replicate 12 0⟩⟩

/-- C1: writing N = 3 bytes at offset O = 0 of an empty regular file
(old size 0).  The write succeeds, allocates a block, advances the cursor to
3, and a fresh read of 3 bytes from offset 0 returns exactly the written
bytes — but `size_lower_32_bits` stays 0, not `max(old_size, O + N) = 3`:
no statement of `Cursor::write` updates the inode's size field. -/
theorem claim_C1_write_never_updates_size :
    (okValue (Cursor.write c1Fs 0 [65, 66, 67])).map
        (fun p => p.1.inode.size_lower_32_bits) = some 0 ∧
    (okValue (Cursor.write c1Fs 0 [65, 66, 67])).map (fun p => p.2) = some 3 ∧
    (okValue (Cursor.write c1Fs 0 [65, 66, 67])).map
        (fun p => okValue (Cursor.read p.1 0 3)) = some (some [65, 66, 67]) ∧
    max c1Fs.inode.size_lower_32_bits (0 + 3) = 3 ∧ (0 : Nat) ≠ 3 := by
  refine ⟨by decide, by decide, by decide, by decide, by decide⟩

/-- A regular file of size 10 containing "0123456789", stored in data block 7
of a 1024-byte-block filesystem (the 1014 bytes after the content are the
zero fill of the block). -/
def c2Fs : FileFs :=
  ⟨1024, List.replicate 1024 255,
    fun i => if i = 7 then
        [48, 49, 50, 51, 52, 53, 54, 55, 56, 57] ++ List.replicate 1014 0
      else List.replicate 1024 0,
    ⟨0x8000, 0, 0, 10, 1, 7 :: List.replicate 11 0⟩⟩

/-- C2 counterexample: on the size-10 file, a fresh cursor read into a
20-byte buffer copies 20 bytes, not 10 — `Cursor::read` is bounded by the
allocated blocks (1024 bytes here), never by `size_lower_32_bits`, so it does
return bytes beyond the file's size. -/
theorem claim_C2_counterexample :
    (okValue (Cursor.read c2Fs 0 20)).map List.length = some 20 ∧
    ¬ ((okValue (Cursor.read c2Fs 0 20)).map List.length = some 10) := by
  refine ⟨by decide, by decide⟩

/-- C3: `advance` adds `min(n, size)`, not `min(n, size - total_index)`.
From position 4 on a size-10 file, `advance(10)` lands on 14 (the claimed
formula gives 10); after `advance_to_end` (position 10), `advance(5)` lands
on 15, so the cursor does move past end-of-file and the claimed idempotence
fails. -/
theorem claim_C3_advance_overshoots_eof :
    Cursor.advance 10 0 4 = 4 ∧
    Cursor.advance 10 4 10 = 14 ∧
    Cursor.advance_to_end 10 0 = 10 ∧
    Cursor.advance 10 (Cursor.advance_to_end 10 0) 5 = 15 ∧ (15 : Nat) ≠ 10 := by
  refine ⟨by decide, by decide, by decide, by decide, by decide⟩

/-- The "." record of a directory (inode 2, size 12, one-byte name). -/
def dotRec : DirRecord := ⟨2, 12, 1, .Directory, [46]⟩

/-- The ".." record (inode 2, size 12, two-byte name). -/
def dotdotRec : DirRecord := ⟨2, 12, 2, .Directory, [46, 46]⟩

/-- A "foo" record whose size 1000 spans to the end of the 1024-byte block. -/
def fooRec : DirRecord := ⟨11, 1000, 3, .RegularFile, [102, 111, 111]⟩

/-- A well-formed one-block directory: ".", "..", "foo"; record sizes
12 + 12 + 1000 tile the 1024-byte block. -/
def dirBlock : List DirRecord := [dotRec, dotdotRec, fooRec]

/-- C5: inserting "bar" into the directory splits the "foo" record, but the
`align(4)` correction is computed while the cursor still sits at the START of
"foo" (offset 24, correction 0), not after its header and name (offset 35),
so the shrunk record's size becomes 8 + 3 + 0 = 11 — not a multiple of 4.
The claimed alignment invariant `4 ∣ size` is broken by `add_entry`. -/
theorem claim_C5_alignment_not_maintained :
    (DirectoryEntries.add_entry_go 1024 12 .RegularFile [98, 97, 114] dirBlock 0).map
        (List.map DirRecord.size) = some [12, 12, 11, 989] ∧
    ¬ (11 % 4 = 0) := by
  refine ⟨by decide, by decide⟩

/-- A superblock with a valid signature and major version 0. -/
def c6SbV0 : SuperblockM := ⟨0xEF53, 0, 0, 1024, 8192⟩

/-- A superblock with a valid signature and major version 2. -/
def c6SbV2 : SuperblockM := ⟨0xEF53, 2, 0, 1024, 8192⟩

/-- C6: `Superblock::from_ptr` returns the extended superblock when
`major_version > 1` is false — so `open` SUCCEEDS on a major-version-0 image
(which has no extended superblock and which the spec says must be rejected)
and FAILS with the "only support for version >= 1" expect on a
major-version-2 image (which the spec says must be accepted).  The version
check is inverted relative to its own diagnostic message. -/
theorem claim_C6_version_check_inverted :
    (okValue (Ext2Device.openFs c6SbV0)).isSome = true ∧
    panicOf (Ext2Device.openFs c6SbV2) = some PanicKind.unsupportedVersion ∧
    c6SbV0.major_version < 1 ∧ 1 ≤ c6SbV2.major_version := by
  refine ⟨by decide, by decide, by decide, by decide⟩

/-- A block bitmap whose first byte is full and whose second byte has bit 0
free: the scan reserves bit 8. -/
def c9Bitmap : List Nat := 255 :: 254 :: List.replicate 1022 0

/-- C9: with all twelve direct block pointers already non-zero,
`Inode::reserve_block` still succeeds: it reserves block 8 in the bitmap and
returns it while the pointer loop finds no zero slot and records nothing —
the operation does NOT fail, it returns without recording the allocated
block. -/
theorem claim_C9_reserve_block_silent_on_full_array :
    (List.replicate 12 1).all (fun p => p ≠ 0) = true ∧
    (Inode.reserve_block c9Bitmap (List.replicate 12 1)).map
        (fun r => (r.1, r.2.2)) = some (8, List.replicate 12 1) := by
  refine ⟨by decide, by decide⟩

/-- C10: at `total_index = 12 * B` the slot is 12; the guard
`block_count > 12` does not reject it, and the lookup proceeds to index
`direct_block_pointers[12]` on a 12-element array — the failure is the array
bounds check, not a rejection before the indexing.  Slot 13 and beyond hit
the explicit guard instead. -/
theorem claim_C10_slot_twelve_reaches_indexing :
    12288 = 12 * 1024 ∧
    ¬ (12 < 12) ∧
    panicOf (Cursor.get_current_block_index (List.replicate 12 1) 1024 12288) =
      some PanicKind.indexOutOfBounds ∧
    panicOf (Cursor.get_current_block_index (List.replicate 12 1) 1024 13312) =
      some PanicKind.tooManyBlocks := by
  refine ⟨by decide, by decide, by decide, by decide⟩

/-- Successful results of `create_inode_in_dir` (panic-free and not the
`None` of a non-directory receiver). -/
def createResult (st : DirFs) (kind : EntryKind) (perms user_id group_id : Nat)
    (name : List Nat) : Option (Nat × DirFs) :=
  match Inode.create_inode_in_dir st kind perms user_id group_id name with
  | .ok (some r) => some r
  | _ => none

/-- An inode table whose slot 3 (the inode the reservation below returns)
still carries stale on-disk data: size 7 and a non-zero first block pointer. -/
def c7Table : Nat → InodeData := fun n =>
  if n = 3 then ⟨0, 0, 0, 7, 0, 9 :: List.replicate 11 0⟩
  else ⟨0, 0, 0, 0, 0, List.replicate 12 0⟩

/-- A directory (group-0) state for `create_inode_in_dir`: inode bitmap byte
0 is 3 (bits 0 and 1 taken, so bit 2 is reserved and inode 3 returned), the
".", "..", "foo" record block, and a directory inode. -/
def c7St : DirFs :=
  ⟨1024, 3 :: List.replicate 1023 0, c7Table, dirBlock,
    ⟨0x4000, 0, 0, 1024, 2, List.replicate 12 0⟩⟩

/-- C7 counterexample: `create_inode_in_dir` initialises only
`type_permission`, `hard_link_to_inode`, `user_id` and `group_id`; it never
writes `size_lower_32_bits` or the block pointers of the fresh inode.  On a
table slot holding stale data the created inode keeps size 7 and block
pointer 9, not the claimed 0s. -/
theorem claim_C7_counterexample :
    (createResult c7St .RegularFile 0o644 0 0 [98, 97, 114]).map
        (fun p => ((p.2.inode_table p.1).size_lower_32_bits,
                   (p.2.inode_table p.1).direct_block_pointers)) =
      some (7, 9 :: List.replicate 11 0) ∧
    ¬ ((createResult c7St .RegularFile 0o644 0 0 [98, 97, 114]).map
        (fun p => (p.2.inode_table p.1).size_lower_32_bits) = some 0) := by
  refine ⟨by decide, by decide⟩

namespace FileSystem

theorem scan_full_prefix : ∀ (l : List Nat) (bound i : Nat),
    i < scan_full l bound → l.getD i 0 = 255 := by
  intro l
  induction l with
  | nil => intro bound i h; simp [scan_full] at h
  | cons b rest ih =>
    intro bound i h
    simp only [scan_full] at h
    by_cases hb : bound = 0
    · rw [if_pos hb] at h; omega
    · rw [if_neg hb] at h
      by_cases h255 : b = 255
      · rw [if_pos h255] at h
        cases i with
        | zero => simpa using h255
        | succ i =>
          have := ih (bound - 1) i (by omega)
          simpa using this
      · rw [if_neg h255] at h; omega

theorem scan_full_stop : ∀ (l : List Nat) (bound : Nat),
    scan_full l bound < bound → scan_full l bound < l.length →
    l.getD (scan_full l bound) 0 ≠ 255 := by
  intro l
  induction l with
  | nil => intro bound h1 h2; simp at h2
  | cons b rest ih =>
    intro bound h1 h2
    by_cases hb : bound = 0
    · rw [hb] at h1; simp [scan_full] at h1
    · by_cases h255 : b = 255
      · have hrw : scan_full (b :: rest) bound = 1 + scan_full rest (bound - 1) := by
          simp [scan_full, hb, h255]
        rw [hrw] at h1 h2 ⊢
        have h2' : scan_full rest (bound - 1) < rest.length := by
          simp at h2; omega
        rw [Nat.add_comm 1 (scan_full rest (bound - 1)), List.getD_cons_succ]
        exact ih (bound - 1) (by omega) h2'
      · have hrw : scan_full (b :: rest) bound = 0 := by simp [scan_full, hb, h255]
        rw [hrw]
        simpa using h255

theorem first_zero_bit_spec : ∀ (fuel byte i j : Nat),
    first_zero_bit fuel byte i = some j →
    i ≤ j ∧ j < i + fuel ∧ byte &&& (1 <<< j) = 0 ∧
      ∀ k, i ≤ k → k < j → ¬(byte &&& (1 <<< k) = 0) := by
  intro fuel
  induction fuel with
  | zero => intro byte i j h; simp [first_zero_bit] at h
  | succ fuel ih =>
    intro byte i j h
    simp only [first_zero_bit] at h
    by_cases hz : byte &&& (1 <<< i) = 0
    · rw [if_pos hz] at h
      obtain rfl : i = j := by simpa using h
      exact ⟨le_refl i, by omega, hz, fun k hk1 hk2 => by omega⟩
    · rw [if_neg hz] at h
      obtain ⟨ha, hb, hc, hd⟩ := ih byte (i + 1) j h
      refine ⟨by omega, by omega, hc, fun k hk1 hk2 => ?_⟩
      rcases Nat.eq_or_lt_of_le hk1 with rfl | hlt
      · exact hz
      · exact hd k (by omega) hk2

/-- Every byte below 256 that is not 255 has a zero bit in range, so the
LSB-first scan succeeds. -/
theorem first_zero_bit_total : ∀ byte, byte < 256 → byte ≠ 255 →
    (first_zero_bit 8 byte 0).isSome = true := by decide

end FileSystem

theorem and_shift_eq_zero_iff (byte k : Nat) :
    byte &&& (1 <<< k) = 0 ↔ byte.testBit k = false := by
  rw [Nat.shiftLeft_eq, one_mul, Nat.and_two_pow]
  cases h : byte.testBit k <;> simp [h, Nat.pow_eq_zero]

/-- Bit `m` of a bitmap: bit `m % 8` of byte `m / 8`, as the scan addresses
them. -/
def bitGet (bm : List Nat) (m : Nat) : Bool :=
  (bm.getD (m / 8) 0).testBit (m % 8)

/-- C8: on a bitmap block (1024 scanned bytes) holding at least one zero bit,
`reserve_bitmap` returns `byte_index * 8 + bit_index` where `byte_index` is
the first byte below 255 and `bit_index` its first zero bit scanning from the
least significant bit; afterwards that bit is set and every other bit of the
bitmap is unchanged. -/
theorem claim_C8_reserve_bitmap_first_fit_frame
    (bm : List Nat)
    (hlen : bm.length = 1024)
    (hbytes : ∀ b ∈ bm, b < 256)
    (hfree : ∃ i, i < 1024 ∧ bm.getD i 255 ≠ 255) :
    ∃ byte_index bit_index bm',
      FileSystem.reserve_bitmap bm = some (byte_index * 8 + bit_index, bm') ∧
      byte_index < 1024 ∧ bit_index < 8 ∧
      (∀ i, i < byte_index → bm.getD i 0 = 255) ∧
      bm.getD byte_index 0 < 255 ∧
      (∀ j, j < bit_index → (bm.getD byte_index 0).testBit j = true) ∧
      (bm.getD byte_index 0).testBit bit_index = false ∧
      bm' = bm.set byte_index (bm.getD byte_index 0 ||| (1 <<< bit_index)) ∧
      bitGet bm' (byte_index * 8 + bit_index) = true ∧
      (∀ m, m ≠ byte_index * 8 + bit_index → bitGet bm' m = bitGet bm m) := by
  obtain ⟨i, hi, hneq⟩ := hfree
  have hilen : i < bm.length := by
    by_contra hcon
    push_neg at hcon
    rw [List.getD_eq_default _ _ hcon] at hneq
    exact hneq rfl
  have hsle : FileSystem.scan_full bm 1024 ≤ i := by
    by_contra hcon
    push_neg at hcon
    have h255 := FileSystem.scan_full_prefix bm 1024 i hcon
    rw [List.getD_eq_getElem _ _ hilen] at h255
    rw [List.getD_eq_getElem _ _ hilen] at hneq
    exact hneq h255
  have hslen : FileSystem.scan_full bm 1024 < bm.length := by omega
  have hsbound : FileSystem.scan_full bm 1024 < 1024 := by omega
  have hstop := FileSystem.scan_full_stop bm 1024 hsbound hslen
  have hgetD : bm.getD (FileSystem.scan_full bm 1024) 0 = bm[FileSystem.scan_full bm 1024] :=
    List.getD_eq_getElem _ _ hslen
  have hbyte_lt : bm[FileSystem.scan_full bm 1024] < 256 :=
    hbytes _ (List.getElem_mem hslen)
  have hbyte255 : bm[FileSystem.scan_full bm 1024] ≠ 255 := by rw [hgetD] at hstop; exact hstop
  have hfzb := FileSystem.first_zero_bit_total _ hbyte_lt hbyte255
  obtain ⟨bit, hbit⟩ := Option.isSome_iff_exists.mp hfzb
  obtain ⟨-, hbit8, hzero, hmin⟩ := FileSystem.first_zero_bit_spec 8 _ 0 bit hbit
  have hres : FileSystem.reserve_bitmap bm =
      some (FileSystem.scan_full bm 1024 * 8 + bit,
        bm.set (FileSystem.scan_full bm 1024)
          (bm[FileSystem.scan_full bm 1024] ||| (1 <<< bit))) := by
    simp only [FileSystem.reserve_bitmap, List.getElem?_eq_getElem hslen, hbit]
  refine ⟨FileSystem.scan_full bm 1024, bit, _, hres, hsbound, by omega,
    fun k hk => FileSystem.scan_full_prefix bm 1024 k hk, by omega,
    fun j hj => ?_, ?_, by rw [hgetD], ?_, ?_⟩
  · have := hmin j (by omega) hj
    rw [and_shift_eq_zero_iff] at this
    rw [hgetD]
    simpa using this
  · rw [hgetD]
    exact (and_shift_eq_zero_iff _ _).mp hzero
  · have hdiv : (FileSystem.scan_full bm 1024 * 8 + bit) / 8 = FileSystem.scan_full bm 1024 := by
      omega
    have hmod : (FileSystem.scan_full bm 1024 * 8 + bit) % 8 = bit := by omega
    unfold bitGet
    rw [hdiv, hmod, List.getD_eq_getElem?_getD, List.getElem?_set_self hslen]
    simp only [Option.getD_some]
    rw [Nat.testBit_or, (and_shift_eq_zero_iff _ _).mp hzero]
    rw [Nat.shiftLeft_eq, one_mul]
    simp [Nat.testBit_two_pow_self]
  · intro m hm
    unfold bitGet
    by_cases hq : m / 8 = FileSystem.scan_full bm 1024
    · have hr : m % 8 ≠ bit := by omega
      rw [hq, List.getD_eq_getElem?_getD, List.getElem?_set_self hslen]
      simp only [Option.getD_some]
      rw [Nat.testBit_or, Nat.shiftLeft_eq, one_mul,
        Nat.testBit_two_pow_of_ne (fun hcontra => hr hcontra.symm)]
      rw [List.getD_eq_getElem _ _ hslen]
      simp
    · rw [List.getD_eq_getElem?_getD, List.getElem?_set_ne (fun hcontra => hq hcontra.symm),
        ← List.getD_eq_getElem?_getD]

/-- A bitmap block: byte 0 full, byte 1 holding 0b00000011, rest free. -/
def c8Bitmap : List Nat := 255 :: 3 :: List.replicate 1022 0

theorem claim_C8_reserve_bitmap_first_fit_frame_witness :
    (c8Bitmap.length = 1024 ∧ (∀ b ∈ c8Bitmap, b < 256) ∧
      ∃ i, i < 1024 ∧ c8Bitmap.getD i 255 ≠ 255) ∧
    (∃ byte_index bit_index bm',
      FileSystem.reserve_bitmap c8Bitmap = some (byte_index * 8 + bit_index, bm') ∧
      byte_index < 1024 ∧ bit_index < 8 ∧
      (∀ i, i < byte_index → c8Bitmap.getD i 0 = 255) ∧
      c8Bitmap.getD byte_index 0 < 255 ∧
      (∀ j, j < bit_index → (c8Bitmap.getD byte_index 0).testBit j = true) ∧
      (c8Bitmap.getD byte_index 0).testBit bit_index = false ∧
      bm' = c8Bitmap.set byte_index (c8Bitmap.getD byte_index 0 ||| (1 <<< bit_index)) ∧
      bitGet bm' (byte_index * 8 + bit_index) = true ∧
      (∀ m, m ≠ byte_index * 8 + bit_index → bitGet bm' m = bitGet c8Bitmap m)) :=
  ⟨⟨by simp [c8Bitmap], fun b hb => by
      rcases List.mem_cons.mp hb with rfl | hb
      · omega
      · rcases List.mem_cons.mp hb with rfl | hb
        · omega
        · rw [List.eq_of_mem_replicate hb]; omega,
    ⟨1, by omega, by decide⟩⟩,
    claim_C8_reserve_bitmap_first_fit_frame c8Bitmap (by simp [c8Bitmap])
      (fun b hb => by
        rcases List.mem_cons.mp hb with rfl | hb
        · omega
        · rcases List.mem_cons.mp hb with rfl | hb
          · omega
          · rw [List.eq_of_mem_replicate hb]; omega)
      ⟨1, by omega, by decide⟩⟩

/-- C2 amended: `Cursor::read` copies at most `buf_len` bytes (whatever the
state), and on the size-10 file stored in one allocated 1024-byte block a
fresh 20-byte read returns all 20 bytes — the 10 content bytes followed by 10
bytes of block fill — because the read is bounded by allocated blocks, never
by the inode's size field. -/
theorem claim_C2_read_at_most_buffer :
    (∀ (fs : FileFs) (total_index buf_len : Nat) (out : List Nat),
        Cursor.read fs total_index buf_len = .ok out → out.length ≤ buf_len) ∧
    okValue (Cursor.read c2Fs 0 20) =
      some ([48, 49, 50, 51, 52, 53, 54, 55, 56, 57] ++ List.replicate 10 0) := by
  constructor
  · have main : ∀ (fuel : Nat) (fs : FileFs) (ti bl : Nat) (out : List Nat),
        Cursor.read_go fuel fs ti bl = .ok out → out.length ≤ bl := by
      intro fuel
      induction fuel with
      | zero =>
        intro fs ti bl out h
        simp only [Cursor.read_go, Except.ok.injEq] at h
        subst h
        simp
      | succ fuel ih =>
        intro fs ti bl out h
        simp only [Cursor.read_go] at h
        by_cases hbl : bl = 0
        · rw [if_pos hbl] at h
          simp only [Except.ok.injEq] at h
          subst h
          simp
        · rw [if_neg hbl] at h
          rcases hgc : Cursor.get_current_block_index fs.inode.direct_block_pointers
              fs.block_size ti with e | ob
          · rw [hgc] at h; exact absurd h (by simp)
          · rw [hgc] at h
            rcases ob with - | b
            · simp only [Except.ok.injEq] at h
              subst h
              simp
            · rcases hr : Cursor.read_go fuel fs
                  (ti + min (fs.block_size - ti % fs.block_size) bl)
                  (bl - min (fs.block_size - ti % fs.block_size) bl) with e | rest
              · rw [hr] at h; exact absurd h (by simp)
              · rw [hr] at h
                simp only [Except.ok.injEq] at h
                subst h
                have h1 := ih fs (ti + min (fs.block_size - ti % fs.block_size) bl)
                  (bl - min (fs.block_size - ti % fs.block_size) bl) rest hr
                have h2 : (((fs.blocks b).drop (ti % fs.block_size)).take
                    (min (fs.block_size - ti % fs.block_size) bl)).length ≤
                    min (fs.block_size - ti % fs.block_size) bl := by
                  simp [List.length_take]
                simp only [List.length_append]
                omega
    exact fun fs ti bl out h => main bl fs ti bl out h
  · decide

theorem claim_C2_read_at_most_buffer_witness :
    ([48, 49, 50, 51, 52, 53, 54, 55, 56, 57] ++ List.replicate 10 0).length ≤ 20 :=
  claim_C2_read_at_most_buffer.1 c2Fs 0 20
    ([48, 49, 50, 51, 52, 53, 54, 55, 56, 57] ++ List.replicate 10 0) rfl

/-- C7 amended: on a directory inode, with a free bit in the group's inode
bitmap and a directory record with room, `create_inode_in_dir` with a
non-directory, non-Unkown kind returns inode `bit + 1` and initialises
exactly `type_permission = kind | perms`, `hard_link_to_inode = 1`,
`user_id` and `group_id` on that inode's table record; its
`size_lower_32_bits` and `direct_block_pointers` keep whatever the table
slot already held industry, and every other table slot is untouched. -/
theorem claim_C7_create_initialises_fields
    (st : DirFs) (kind : EntryKind) (perms user_id group_id : Nat) (name : List Nat)
    (bit : Nat) (bm' : List Nat) (records' : List DirRecord)
    (hkd : kind ≠ .Directory) (hku : kind ≠ .Unkown)
    (hdir : st.dir_inode.type_permission &&& 0x4000 = 0x4000)
    (hres : FileSystem.reserve_bitmap st.inode_bitmap = some (bit, bm'))
    (hadd : DirectoryEntries.add_entry_go st.block_size (bit + 1) kind name
      st.dir_records 0 = some records') :
    ∃ st', Inode.create_inode_in_dir st kind perms user_id group_id name =
        .ok (some (bit + 1, st')) ∧
      st'.inode_bitmap = bm' ∧
      st'.dir_records = records' ∧
      (st'.inode_table (bit + 1)).type_permission = kindTypeBits kind ||| perms ∧
      (st'.inode_table (bit + 1)).hard_link_to_inode = 1 ∧
      (st'.inode_table (bit + 1)).user_id = user_id ∧
      (st'.inode_table (bit + 1)).group_id = group_id ∧
      (st'.inode_table (bit + 1)).size_lower_32_bits =
        (st.inode_table (bit + 1)).size_lower_32_bits ∧
      (st'.inode_table (bit + 1)).direct_block_pointers =
        (st.inode_table (bit + 1)).direct_block_pointers ∧
      (∀ n, n ≠ bit + 1 → st'.inode_table n = st.inode_table n) := by
  refine ⟨{ st with inode_bitmap := bm',
                    dir_records := records',
                    inode_table := fun n => if n = bit + 1 then
                        { st.inode_table (bit + 1) with
                            type_permission := kindTypeBits kind ||| perms,
                            hard_link_to_inode := 1,
                            user_id := user_id,
                            group_id := group_id }
                      else st.inode_table n },
    ?_, rfl, rfl, ?_, ?_, ?_, ?_, ?_, ?_, ?_⟩
  · simp only [Inode.create_inode_in_dir, if_neg hkd, if_pos hdir, hres, hadd, if_neg hku]
  · simp
  · simp
  · simp
  · simp
  · simp
  · simp
  · intro n hn
    simp [hn]

theorem claim_C7_create_initialises_fields_witness :
    (c7St.dir_inode.type_permission &&& 0x4000 = 0x4000 ∧
      FileSystem.reserve_bitmap c7St.inode_bitmap = some (2, 7 :: List.replicate 1023 0) ∧
      DirectoryEntries.add_entry_go c7St.block_size 3 .RegularFile [98, 97, 114]
        c7St.dir_records 0 =
        some [dotRec, dotdotRec, { fooRec with size := 11 },
          ⟨3, 989, 3, .RegularFile, [98, 97, 114]⟩]) ∧
    (∃ st', Inode.create_inode_in_dir c7St .RegularFile 0o644 0 0 [98, 97, 114] =
        .ok (some (3, st')) ∧
      st'.inode_bitmap = 7 :: List.replicate 1023 0 ∧
      st'.dir_records = [dotRec, dotdotRec, { fooRec with size := 11 },
        ⟨3, 989, 3, .RegularFile, [98, 97, 114]⟩] ∧
      (st'.inode_table 3).type_permission = kindTypeBits .RegularFile ||| 0o644 ∧
      (st'.inode_table 3).hard_link_to_inode = 1 ∧
      (st'.inode_table 3).user_id = 0 ∧
      (st'.inode_table 3).group_id = 0 ∧
      (st'.inode_table 3).size_lower_32_bits = (c7St.inode_table 3).size_lower_32_bits ∧
      (st'.inode_table 3).direct_block_pointers = (c7St.inode_table 3).direct_block_pointers ∧
      (∀ n, n ≠ 3 → st'.inode_table n = c7St.inode_table n)) :=
  ⟨⟨rfl, rfl, rfl⟩,
    claim_C7_create_initialises_fields c7St .RegularFile 0o644 0 0 [98, 97, 114] 2
      (7 :: List.replicate 1023 0)
      [dotRec, dotdotRec, { fooRec with size := 11 },
        ⟨3, 989, 3, .RegularFile, [98, 97, 114]⟩]
      (by decide) (by decide) rfl rfl rfl⟩

/-- Well-formedness of an on-disk directory record (spec section 3
invariants, minus the 4-byte alignment the driver fails to maintain): the
size covers header and name, fits in its u16 field, and `name_len` is the
u8 length of the name. -/
def RecordWf (r : DirRecord) : Prop :=
  8 + r.name_len ≤ r.size ∧ r.size < 65536 ∧ r.name_len = r.name.length ∧ r.name_len < 256

instance (r : DirRecord) : Decidable (RecordWf r) := by
  unfold RecordWf
  infer_instance

/-- Every record of the chain, laid out from cursor offset `off`, fits
inside its block: records never straddle a block boundary. -/
def Tiles (B : Nat) : List DirRecord → Nat → Prop
  | [], _ => True
  | r :: rest, off => off % B + r.size ≤ B ∧ Tiles B rest (off + r.size)

instance Tiles.dec (B : Nat) : (rs : List DirRecord) → (off : Nat) → Decidable (Tiles B rs off)
  | [], _ => .isTrue trivial
  | r :: rest, off =>
    have : Decidable (Tiles B rest (off + r.size)) := Tiles.dec B rest (off + r.size)
    inferInstanceAs (Decidable (off % B + r.size ≤ B ∧ Tiles B rest (off + r.size)))

theorem sub16_eq (a b : Nat) (ha : a < 65536) (hb : b ≤ a) : sub16 a b = a - b := by
  unfold sub16
  rw [Nat.mod_eq_of_lt ha, Nat.mod_eq_of_lt (by omega : b < 65536)]
  omega

/-- The walk of `add_entry` on a well-formed tiled chain holding a record
with enough slack splits the FIRST record whose padding suffices: the chain
becomes `l₁ ++ [shrunk record, fresh record] ++ l₂`, the shrunk size is
`8 + name_len + c` for an alignment correction `c ≤ 3`, and the fresh record
takes the rest of the split record's extent. -/
theorem add_entry_go_split
    (B new_inode : Nat) (kind : EntryKind) (new_name : List Nat)
    (hname : new_name.length < 256) :
    ∀ (rs : List DirRecord) (off : Nat),
      (∀ r ∈ rs, RecordWf r) →
      Tiles B rs off →
      (∃ r ∈ rs, new_name.length + 11 ≤ r.size - (8 + r.name_len)) →
      ∃ l₁ r c l₂,
        rs = l₁ ++ r :: l₂ ∧ c ≤ 3 ∧
        8 + r.name_len + c + (new_name.length + 8) ≤ r.size ∧
        DirectoryEntries.add_entry_go B new_inode kind new_name rs off =
          some (l₁ ++ { r with size := 8 + r.name_len + c } ::
            ⟨new_inode, r.size - (8 + r.name_len) - c, new_name.length, kind, new_name⟩ :: l₂) := by
  intro rs
  induction rs with
  | nil =>
    intro off hwf ht hex
    obtain ⟨r, hr, -⟩ := hex
    simp at hr
  | cons r rest ih =>
    intro off hwf ht hex
    obtain ⟨hfit, htrest⟩ := ht
    obtain ⟨hw1, hw2, hw3, hw4⟩ := hwf r (by simp)
    have hwrest : ∀ x ∈ rest, RecordWf x := fun x hx => hwf x (by simp [hx])
    have hremain : 8 ≤ B - off % B := by omega
    have hL : (new_name.length + 8) % 65536 = new_name.length + 8 :=
      Nat.mod_eq_of_lt (by omega)
    have hpad : sub16 r.size (r.name_len + 8) = r.size - (8 + r.name_len) := by
      rw [sub16_eq r.size (r.name_len + 8) hw2 (by omega)]
      omega
    by_cases hskip1 : sub16 r.size (r.name_len + 8) < (new_name.length + 8) % 65536
    · have hgo1 : DirectoryEntries.add_entry_go B new_inode kind new_name (r :: rest) off =
          (DirectoryEntries.add_entry_go B new_inode kind new_name rest (off + r.size)).map
            (r :: ·) := by
        simp only [DirectoryEntries.add_entry_go]
        rw [if_neg (by omega : ¬ B - off % B < 8), if_neg (by omega : ¬ r.size = 0),
          if_pos hskip1]
      have hex' : ∃ x ∈ rest, new_name.length + 11 ≤ x.size - (8 + x.name_len) := by
        obtain ⟨x, hx, hxs⟩ := hex
        rcases List.mem_cons.mp hx with rfl | hx'
        · rw [hpad, hL] at hskip1
          omega
        · exact ⟨x, hx', hxs⟩
      obtain ⟨l₁, rr, c, l₂, heq, hc, hle, hgo⟩ := ih (off + r.size) hwrest htrest hex'
      refine ⟨r :: l₁, rr, c, l₂, by simp [heq], hc, hle, ?_⟩
      rw [hgo1, hgo]
      simp
    · have hcor3 : off % B % 4 ≤ 3 := by omega
      have hLlepad : new_name.length + 8 ≤ r.size - (8 + r.name_len) := by
        rw [hpad, hL] at hskip1
        omega
      have hrem : sub16 (sub16 r.size (r.name_len + 8)) (off % B % 4) =
          r.size - (8 + r.name_len) - off % B % 4 := by
        rw [hpad, sub16_eq _ _ (by omega) (by omega)]
      by_cases hskip2 : sub16 (sub16 r.size (r.name_len + 8)) (off % B % 4) <
          (new_name.length + 8) % 65536
      · have hgo1 : DirectoryEntries.add_entry_go B new_inode kind new_name (r :: rest) off =
            (DirectoryEntries.add_entry_go B new_inode kind new_name rest (off + r.size)).map
              (r :: ·) := by
          simp only [DirectoryEntries.add_entry_go]
          rw [if_neg (by omega : ¬ B - off % B < 8), if_neg (by omega : ¬ r.size = 0),
            if_neg hskip1, if_neg (by omega : ¬ B - off % B < off % B % 4), if_pos hskip2]
        have hex' : ∃ x ∈ rest, new_name.length + 11 ≤ x.size - (8 + x.name_len) := by
          obtain ⟨x, hx, hxs⟩ := hex
          rcases List.mem_cons.mp hx with rfl | hx'
          · rw [hrem, hL] at hskip2
            omega
          · exact ⟨x, hx', hxs⟩
        obtain ⟨l₁, rr, c, l₂, heq, hc, hle, hgo⟩ := ih (off + r.size) hwrest htrest hex'
        refine ⟨r :: l₁, rr, c, l₂, by simp [heq], hc, hle, ?_⟩
        rw [hgo1, hgo]
        simp
      · have hgo1 : DirectoryEntries.add_entry_go B new_inode kind new_name (r :: rest) off =
            some ({ r with size := (off % B % 4 + r.name_len + 8) % 65536 } ::
              ⟨new_inode, sub16 (sub16 r.size (r.name_len + 8)) (off % B % 4),
                new_name.length, kind, new_name⟩ :: rest) := by
          simp only [DirectoryEntries.add_entry_go]
          rw [if_neg (by omega : ¬ B - off % B < 8), if_neg (by omega : ¬ r.size = 0),
            if_neg hskip1, if_neg (by omega : ¬ B - off % B < off % B % 4), if_neg hskip2,
            if_neg (by omega : ¬ 255 < new_name.length)]
        have hsz : (off % B % 4 + r.name_len + 8) % 65536 = 8 + r.name_len + off % B % 4 := by
          rw [Nat.mod_eq_of_lt (by omega)]
          omega
        refine ⟨[], r, off % B % 4, rest, by simp, hcor3, ?_, ?_⟩
        · rw [hrem, hL] at hskip2
          omega
        · rw [hgo1, hsz, hrem]
          simp

theorem tiles_append (B : Nat) :
    ∀ (l₁ l₂ : List DirRecord) (off : Nat),
      Tiles B (l₁ ++ l₂) off ↔
        Tiles B l₁ off ∧ Tiles B l₂ (off + (l₁.map DirRecord.size).sum) := by
  intro l₁
  induction l₁ with
  | nil =>
    intro l₂ off
    simp [Tiles]
  | cons r rest ih =>
    intro l₂ off
    rw [List.cons_append]
    show (off % B + r.size ≤ B ∧ Tiles B (rest ++ l₂) (off + r.size)) ↔ _
    rw [ih l₂ (off + r.size)]
    show _ ↔ (off % B + r.size ≤ B ∧ Tiles B rest (off + r.size)) ∧ _
    rw [List.map_cons, List.sum_cons, and_assoc, ← Nat.add_assoc]

theorem tiles_block (B : Nat) :
    ∀ (blk tail : List DirRecord) (off : Nat),
      (∀ r ∈ blk, 0 < r.size) →
      off % B + (blk.map DirRecord.size).sum = B →
      Tiles B tail (off + (blk.map DirRecord.size).sum) →
      Tiles B (blk ++ tail) off := by
  intro blk
  induction blk with
  | nil =>
    intro tail off hpos hsum htail
    simpa using htail
  | cons r rest ih =>
    intro tail off hpos hsum htail
    simp only [List.map_cons, List.sum_cons] at hsum htail
    rw [List.cons_append]
    refine ⟨by omega, ?_⟩
    cases rest with
    | nil =>
      simp only [List.map_nil, List.sum_nil] at hsum htail ⊢
      simpa [← Nat.add_assoc] using htail
    | cons x xs =>
      have hxpos : 0 < x.size := hpos x (by simp)
      have hsumpos : 0 < ((x :: xs).map DirRecord.size).sum := by
        simp only [List.map_cons, List.sum_cons]
        omega
      have hlt : off % B + r.size < B := by omega
      have hszlt : r.size < B := by omega
      have hmod : (off + r.size) % B = off % B + r.size := by
        rw [Nat.add_mod, Nat.mod_eq_of_lt hszlt, Nat.mod_eq_of_lt hlt]
      apply ih tail (off + r.size) (fun y hy => hpos y (by simp [hy]))
      · rw [hmod]
        omega
      · have : off + r.size + ((x :: xs).map DirRecord.size).sum =
            off + (r.size + ((x :: xs).map DirRecord.size).sum) := by omega
        rw [this]
        exact htail

theorem tiles_flatten (B : Nat) :
    ∀ (blocks : List (List DirRecord)) (off : Nat),
      off % B = 0 →
      (∀ blk ∈ blocks, (∀ r ∈ blk, 0 < r.size) ∧ (blk.map DirRecord.size).sum = B) →
      Tiles B blocks.flatten off := by
  intro blocks
  induction blocks with
  | nil =>
    intro off h1 h2
    simp [Tiles]
  | cons blk bs ih =>
    intro off hoff hall
    obtain ⟨hpos, hsum⟩ := hall blk (by simp)
    rw [List.flatten_cons]
    apply tiles_block B blk bs.flatten off hpos (by rw [hoff, hsum]; omega)
    apply ih (off + (blk.map DirRecord.size).sum) ?_ (fun b hb => hall b (by simp [hb]))
    rw [hsum, Nat.add_mod_right]
    exact hoff

theorem entries_from_eq_map (B : Nat) :
    ∀ (rs : List DirRecord) (off : Nat),
      (∀ r ∈ rs, 8 ≤ r.size) → Tiles B rs off →
      DirectoryEntries.entries_from B rs off = rs.map DirRecord.toEntry := by
  intro rs
  induction rs with
  | nil =>
    intro off h ht
    simp [DirectoryEntries.entries_from]
  | cons r rest ih =>
    intro off h ht
    obtain ⟨hfit, htrest⟩ := ht
    have h8 : 8 ≤ r.size := h r (by simp)
    simp only [DirectoryEntries.entries_from]
    rw [if_neg (by omega : ¬ B - off % B < 8), if_neg (by omega : ¬ r.size = 0)]
    rw [ih (off + r.size) (fun x hx => h x (by simp [hx])) htrest]
    simp

theorem flatten_split (blocks : List (List DirRecord)) :
    ∀ (l₁ : List DirRecord) (r : DirRecord) (l₂ : List DirRecord),
      blocks.flatten = l₁ ++ r :: l₂ →
      ∃ bs₁ c₁ c₂ bs₂,
        blocks = bs₁ ++ (c₁ ++ r :: c₂) :: bs₂ ∧
        l₁ = bs₁.flatten ++ c₁ ∧ l₂ = c₂ ++ bs₂.flatten := by
  induction blocks with
  | nil =>
    intro l₁ r l₂ h
    rw [List.flatten_nil] at h
    exact absurd h.symm (by simp)
  | cons b bs ih =>
    intro l₁ r l₂ h
    rw [List.flatten_cons] at h
    rcases List.append_eq_append_iff.mp h with ⟨a2, ha1, ha2⟩ | ⟨c2, hc1, hc2⟩
    · obtain ⟨bs₁, c₁, c₂, bs₂, hb, hl1, hl2⟩ := ih a2 r l₂ ha2
      refine ⟨b :: bs₁, c₁, c₂, bs₂, by rw [hb]; simp, ?_, hl2⟩
      rw [ha1, hl1, List.flatten_cons, List.append_assoc]
    · cases c2 with
      | nil =>
        rw [List.append_nil] at hc1
        rw [List.nil_append] at hc2
        obtain ⟨bs₁, c₁, c₂, bs₂, hb, hl1, hl2⟩ := ih [] r l₂ hc2.symm
        obtain ⟨h1, h2⟩ := List.append_eq_nil.mp hl1.symm
        refine ⟨b :: bs₁, c₁, c₂, bs₂, by rw [hb]; simp, ?_, hl2⟩
        rw [List.flatten_cons, h1, h2, hc1]
        simp
      | cons x xs =>
        injection hc2 with hx hrest
        subst hx
        refine ⟨[], l₁, xs, bs, ?_, by simp, hrest⟩
        rw [← hc1]
        simp

/-- The identity of a record as the round-trip property compares it. -/
def recKey (r : DirRecord) : Nat × EntryKind × List Nat := (r.inode, r.kind, r.name)

/-- C4: enumerate, insert through `add_entry`, enumerate again.  For every
well-formed directory — records well-formed, the record sizes of each of the
(at most twelve direct) blocks summing to the block size `B` — and every new
entry whose name fits and for which some record has enough trailing slack
(its padding covers the new entry plus the worst-case alignment correction
of 3), insertion succeeds; afterwards the new (inode, kind, name) appears
exactly once in the enumeration, every pre-existing entry keeps its
multiplicity with identical inode, kind and name, and the record sizes of
every block still sum to `B`. -/
theorem claim_C4_add_entry_round_trip
    (B new_inode : Nat) (kind : EntryKind) (new_name : List Nat)
    (blocks : List (List DirRecord))
    (_hblocks : blocks.length ≤ 12)
    (hwf : ∀ blk ∈ blocks, ∀ r ∈ blk, RecordWf r)
    (hsum : ∀ blk ∈ blocks, (blk.map DirRecord.size).sum = B)
    (hname : new_name.length < 256)
    (hslack : ∃ r ∈ blocks.flatten, new_name.length + 11 ≤ r.size - (8 + r.name_len))
    (hfresh : (new_inode, kind, new_name) ∉
        (DirectoryEntries.entries_from B blocks.flatten 0).map entryKey) :
    ∃ (result : List DirRecord) (blocks' : List (List DirRecord)),
      DirectoryEntries.add_entry_go B new_inode kind new_name blocks.flatten 0 = some result ∧
      blocks'.flatten = result ∧
      blocks'.length = blocks.length ∧
      (∀ blk ∈ blocks', (blk.map DirRecord.size).sum = B) ∧
      ((DirectoryEntries.entries_from B result 0).map entryKey).count
          (new_inode, kind, new_name) = 1 ∧
      (∀ k, k ≠ (new_inode, kind, new_name) →
        ((DirectoryEntries.entries_from B result 0).map entryKey).count k =
          ((DirectoryEntries.entries_from B blocks.flatten 0).map entryKey).count k) := by
  have hwfj : ∀ r ∈ blocks.flatten, RecordWf r := by
    intro r hr
    obtain ⟨blk, hblk, hrblk⟩ := List.mem_flatten.mp hr
    exact hwf blk hblk r hrblk
  have hpos : ∀ blk ∈ blocks, (∀ r ∈ blk, 0 < r.size) ∧ (blk.map DirRecord.size).sum = B := by
    intro blk hb
    refine ⟨fun r hr => ?_, hsum blk hb⟩
    have := hwf blk hb r hr
    unfold RecordWf at this
    omega
  have htiles : Tiles B blocks.flatten 0 := tiles_flatten B blocks 0 (by simp) hpos
  obtain ⟨l₁, r, c, l₂, heq, hc, hle, hgo⟩ :=
    add_entry_go_split B new_inode kind new_name hname blocks.flatten 0 hwfj htiles hslack
  have hrwf : RecordWf r := hwfj r (by rw [heq]; simp)
  obtain ⟨hr1, hr2, hr3, hr4⟩ := hrwf
  obtain ⟨bs₁, c₁, c₂, bs₂, hb, hl1, hl2⟩ := flatten_split blocks l₁ r l₂ heq
  have h8 : ∀ x ∈ blocks.flatten, 8 ≤ x.size := by
    intro x hx
    have := hwfj x hx
    unfold RecordWf at this
    omega
  have hent_before := entries_from_eq_map B blocks.flatten 0 h8 htiles
  have h8' : ∀ x ∈ l₁ ++ { r with size := 8 + r.name_len + c } ::
      (⟨new_inode, r.size - (8 + r.name_len) - c, new_name.length, kind, new_name⟩ :
        DirRecord) :: l₂, 8 ≤ x.size := by
    intro x hx
    rcases List.mem_append.mp hx with h1 | h2
    · exact h8 x (by rw [heq]; exact List.mem_append_left _ h1)
    · rcases List.mem_cons.mp h2 with rfl | h3
      · show 8 ≤ 8 + r.name_len + c
        omega
      · rcases List.mem_cons.mp h3 with rfl | h4
        · show 8 ≤ r.size - (8 + r.name_len) - c
          omega
        · exact h8 x (by rw [heq]; simp [h4])
  have htsplit := (tiles_append B l₁ (r :: l₂) 0).mp (heq ▸ htiles)
  have htl1 := htsplit.1
  have htail : (0 + (l₁.map DirRecord.size).sum) % B + r.size ≤ B ∧
      Tiles B l₂ (0 + (l₁.map DirRecord.size).sum + r.size) := htsplit.2
  have hfit_r := htail.1
  have htl2 := htail.2
  have hshr_lt : 8 + r.name_len + c < B := by omega
  have hmod2 : (0 + (l₁.map DirRecord.size).sum + (8 + r.name_len + c)) % B =
      (0 + (l₁.map DirRecord.size).sum) % B + (8 + r.name_len + c) := by
    have hlt : (0 + (l₁.map DirRecord.size).sum) % B + (8 + r.name_len + c) < B := by
      omega
    rw [Nat.add_mod, Nat.mod_eq_of_lt hshr_lt, Nat.mod_eq_of_lt hlt]
  have htiles' : Tiles B (l₁ ++ { r with size := 8 + r.name_len + c } ::
      (⟨new_inode, r.size - (8 + r.name_len) - c, new_name.length, kind, new_name⟩ :
        DirRecord) :: l₂) 0 := by
    rw [tiles_append]
    refine ⟨htl1, ?_, ?_, ?_⟩
    · show (0 + (l₁.map DirRecord.size).sum) % B + (8 + r.name_len + c) ≤ B
      omega
    · show (0 + (l₁.map DirRecord.size).sum + (8 + r.name_len + c)) % B +
        (r.size - (8 + r.name_len) - c) ≤ B
      rw [hmod2]
      omega
    · show Tiles B l₂ (0 + (l₁.map DirRecord.size).sum + (8 + r.name_len + c) +
        (r.size - (8 + r.name_len) - c))
      have harith : 0 + (l₁.map DirRecord.size).sum + (8 + r.name_len + c) +
          (r.size - (8 + r.name_len) - c) = 0 + (l₁.map DirRecord.size).sum + r.size := by
        omega
      rw [harith]
      exact htl2
  have hent_after := entries_from_eq_map B _ 0 h8' htiles'
  have hkeys_before : (DirectoryEntries.entries_from B blocks.flatten 0).map entryKey =
      blocks.flatten.map recKey := by
    rw [hent_before, List.map_map]
    rfl
  have hkeys_after : (DirectoryEntries.entries_from B
      (l₁ ++ { r with size := 8 + r.name_len + c } ::
        (⟨new_inode, r.size - (8 + r.name_len) - c, new_name.length, kind, new_name⟩ :
          DirRecord) :: l₂) 0).map entryKey =
      (l₁ ++ { r with size := 8 + r.name_len + c } ::
        (⟨new_inode, r.size - (8 + r.name_len) - c, new_name.length, kind, new_name⟩ :
          DirRecord) :: l₂).map recKey := by
    rw [hent_after, List.map_map]
    rfl
  have hfresh' : (new_inode, kind, new_name) ∉ (l₁.map recKey) ∧
      ¬ ((new_inode, kind, new_name) = recKey r) ∧
      (new_inode, kind, new_name) ∉ (l₂.map recKey) := by
    rw [hkeys_before, heq] at hfresh
    simp only [List.map_append, List.map_cons, List.mem_append, List.mem_cons] at hfresh
    push_neg at hfresh
    exact ⟨hfresh.1, hfresh.2.1, hfresh.2.2⟩
  refine ⟨_, bs₁ ++ (c₁ ++ { r with size := 8 + r.name_len + c } ::
      (⟨new_inode, r.size - (8 + r.name_len) - c, new_name.length, kind, new_name⟩ :
        DirRecord) :: c₂) :: bs₂, hgo, ?_, ?_, ?_, ?_, ?_⟩
  · rw [List.flatten_append, List.flatten_cons, hl1, hl2]
    simp [List.append_assoc]
  · rw [hb]
    simp
  · intro blk hblk
    rcases List.mem_append.mp hblk with h1 | h2
    · exact hsum blk (by rw [hb]; exact List.mem_append_left _ h1)
    · rcases List.mem_cons.mp h2 with rfl | h3
      · have hmid := hsum (c₁ ++ r :: c₂) (by rw [hb]; simp)
        simp only [List.map_append, List.sum_append, List.map_cons, List.sum_cons] at hmid ⊢
        show ((c₁.map DirRecord.size).sum + (8 + r.name_len + c +
          ((r.size - (8 + r.name_len) - c) + (c₂.map DirRecord.size).sum))) = B
        omega
      · exact hsum blk (by rw [hb]; exact List.mem_append_right _ (List.mem_cons_of_mem _ h3))
  · rw [hkeys_after]
    simp only [List.map_append, List.map_cons, List.count_append, List.count_cons]
    have hz1 : (l₁.map recKey).count (new_inode, kind, new_name) = 0 :=
      List.count_eq_zero.mpr hfresh'.1
    have hz2 : (l₂.map recKey).count (new_inode, kind, new_name) = 0 :=
      List.count_eq_zero.mpr hfresh'.2.2
    have hner : ¬ (recKey { r with size := 8 + r.name_len + c } =
        ((new_inode, kind, new_name) : Nat × EntryKind × List Nat)) := by
      intro hcon
      exact hfresh'.2.1 hcon.symm
    rw [hz1, hz2]
    simp only [hner, if_false, beq_iff_eq, if_neg hner]
    have : recKey (⟨new_inode, r.size - (8 + r.name_len) - c, new_name.length,
        kind, new_name⟩ : DirRecord) = (new_inode, kind, new_name) := rfl
    simp [this]
  · intro k hk
    rw [hkeys_after, hkeys_before, heq]
    simp only [List.map_append, List.map_cons, List.count_append, List.count_cons]
    have hnewk : ¬ ((recKey (⟨new_inode, r.size - (8 + r.name_len) - c, new_name.length,
        kind, new_name⟩ : DirRecord)) = k) := by
      show ¬ ((new_inode, kind, new_name) = k)
      exact fun hcon => hk hcon.symm
    have hsame : recKey { r with size := 8 + r.name_len + c } = recKey r := rfl
    rw [hsame]
    simp [hnewk]

theorem claim_C4_add_entry_round_trip_witness :
    ((([dirBlock] : List (List DirRecord)).length ≤ 12 ∧
      (∀ blk ∈ [dirBlock], ∀ r ∈ blk, RecordWf r) ∧
      (∀ blk ∈ [dirBlock], (blk.map DirRecord.size).sum = 1024) ∧
      ([98, 97, 114] : List Nat).length < 256 ∧
      (∃ r ∈ ([dirBlock] : List (List DirRecord)).flatten,
        ([98, 97, 114] : List Nat).length + 11 ≤ r.size - (8 + r.name_len)) ∧
      ((12, EntryKind.RegularFile, ([98, 97, 114] : List Nat)) ∉
        (DirectoryEntries.entries_from 1024
          ([dirBlock] : List (List DirRecord)).flatten 0).map entryKey)) ∧
    ∃ (result : List DirRecord) (blocks' : List (List DirRecord)),
      DirectoryEntries.add_entry_go 1024 12 .RegularFile [98, 97, 114]
        ([dirBlock] : List (List DirRecord)).flatten 0 = some result ∧
      blocks'.flatten = result ∧
      blocks'.length = ([dirBlock] : List (List DirRecord)).length ∧
      (∀ blk ∈ blocks', (blk.map DirRecord.size).sum = 1024) ∧
      ((DirectoryEntries.entries_from 1024 result 0).map entryKey).count
          (12, EntryKind.RegularFile, [98, 97, 114]) = 1 ∧
      (∀ k, k ≠ (12, EntryKind.RegularFile, [98, 97, 114]) →
        ((DirectoryEntries.entries_from 1024 result 0).map entryKey).count k =
          ((DirectoryEntries.entries_from 1024
            ([dirBlock] : List (List DirRecord)).flatten 0).map entryKey).count k)) :=
  ⟨⟨by decide, by decide, by decide, by decide, by decide, by decide⟩,
    claim_C4_add_entry_round_trip 1024 12 .RegularFile [98, 97, 114] [dirBlock]
      (by decide) (by decide) (by decide) (by decide) (by decide) (by decide)⟩
